import Mathlib

/-!
Verification of the Tic-Tac-Toe core (`Board` with its `move` / `won` /
`minimax` / `best` operations) from `TicTacToe.py`.

Embedding choices:
* The four cell values `"X"`, `"O"`, `"."`, `"W"` become the enumeration
  `Entry`, with `TIC`, `TAC`, `EMPTY`, `WIN_MARKER` naming them as the
  source does.
* The Python `fields` dict maps exactly the `SIZE²` grid keys `(x, y)` to
  entries, inserted in row-major order (`y` outer, `x` inner) at
  construction; dict iteration order is insertion order and is preserved by
  `deepcopy` and by assignment to an existing key, so every board iterates
  its keys in that same fixed row-major order.  We model the dict as the
  row-major list of its values (`GameState := List Entry`, value of key
  `(x, y)` at index `y * SIZE + x`) together with the fixed key list
  `coords`; `cell f x y` is the lookup `fields[x, y]`.
* `move` can fail (an `assert` for `x`/`y` not below `size` or for a
  non-empty target cell, a dict `KeyError` for a negative coordinate); it is
  modelled as returning `Option Board`, `none` standing for the raised
  error.  Its success path — copy the board, place `player`, swap
  `player`/`opponent` — is the total function `moveAt`, which is what the
  always-in-contract internal calls from `minimax` amount to.
* `minimax` recurses on boards with strictly fewer empty cells; it is
  modelled with an explicit fuel argument (`minimaxAux`), structurally
  recursive on the fuel, and `Board.minimax` supplies fuel
  `SIZE * SIZE + 1`, which exceeds the number of empty cells of any board.
  The two `for`-loops with `break` become `maxLoop` / `minLoop`.
-/

namespace TicTacToe

/-- The cell alphabet: `Entry = Literal["X", "O", ".", "W"]`. -/
inductive Entry : Type
  | X
  | O
  | Dot
  | Wmark
deriving DecidableEq, Repr

/-- Constant `TIC = "X"`. -/
def TIC : Entry := Entry.X

/-- Constant `TAC = "O"`. -/
def TAC : Entry := Entry.O

/-- Constant `EMPTY = "."`. -/
def EMPTY : Entry := Entry.Dot

/-- Constant `WIN_MARKER = "W"` (only used by the driver's display code). -/
def WIN_MARKER : Entry := Entry.Wmark

/-- Constant `SIZE = 3`. -/
def SIZE : Nat := 3

/-- Constant `LOSING = -1`. -/
def LOSING : Int := -1

/-- Constant `WINNING = +1`. -/
def WINNING : Int := 1

/-- Constant `TIE = 0`. -/
def TIE : Int := 0

/-- Constant `INT32_MIN = -2_147_483_648`. -/
def INT32_MIN : Int := -2147483648

/-- Constant `INT32_MAX = 2_147_483_647`. -/
def INT32_MAX : Int := 2147483647

/-- Type `Point = tuple[int, int]`, restricted to the grid coordinates that occur
as dict keys (non-negative). -/
abbrev Point := Nat × Nat

/-- Type `GameState`: the `fields` dict, as the row-major list of its values
(the value of key `(x, y)` sits at index `y * SIZE + x`). -/
abbrev GameState := List Entry

/-- The dict key set in its fixed insertion order from `__init__`:
`for y in range(size): for x in range(size): ...` — row-major, `y` outer,
`x` inner. -/
def coords : List Point :=
  (List.range SIZE).flatMap fun y => (List.range SIZE).map fun x => (x, y)

/-- The dict lookup `fields[x, y]`. -/
def cell (f : GameState) (x y : Nat) : Entry :=
  f.getD (y * SIZE + x) EMPTY

/-- The `Board` class: `fields`, `player` (mark placed on the next move) and
`opponent`. -/
structure Board where
  fields : GameState
  player : Entry
  opponent : Entry
deriving DecidableEq, Repr

/-- Constructor `Board.__init__` with no `other`: all `size²` cells `EMPTY`, `player`
is `TIC`, `opponent` is `TAC` (the class-level defaults). -/
def Board.new : Board :=
  { fields := List.replicate (SIZE * SIZE) EMPTY
    player := TIC
    opponent := TAC }

/-- The success path of `Board.move`: deep-copy the board, set
`fields[x, y]` to the current `player`, swap `player` and `opponent`. -/
def Board.moveAt (b : Board) (p : Point) : Board :=
  { fields := b.fields.set (p.2 * SIZE + p.1) b.player
    player := b.opponent
    opponent := b.player }

/-- Operation `Board.move(x, y)`.  Coordinates are arbitrary integers, as in Python.
`none` models the raised error: the `assert x < self.size and y < self.size`,
the `KeyError` from `self.fields[x, y]` when a coordinate is negative (the
dict holds only the grid keys), and the `assert self.fields[x, y] == EMPTY`.
On success a new board is returned; the input is a value, never mutated. -/
def Board.move (b : Board) (x y : Int) : Option Board :=
  if x < (SIZE : Int) ∧ y < (SIZE : Int) then
    if 0 ≤ x ∧ 0 ≤ y then
      if cell b.fields x.toNat y.toNat = EMPTY then
        some (b.moveAt (x.toNat, y.toNat))
      else none
    else none
  else none

/-- Predicate `Board.no_empty(fields)`: true iff no key of the dict holds `EMPTY`. -/
def Board.no_empty (fields : GameState) : Bool :=
  coords.all fun p => !(cell fields p.1 p.2 == EMPTY)

/-- One line-scan of `won`: `winning = []; for p in line: if fields[p] ==
opponent: winning.append(p)`. -/
def lineWinning (f : GameState) (opp : Entry) (l : List Point) : List Point :=
  l.filterMap fun p => if cell f p.1 p.2 = opp then some p else none

/-- The rows scanned by `won`, in scan order (`y` outer, `x` inner). -/
def rows : List (List Point) :=
  (List.range SIZE).map fun y => (List.range SIZE).map fun x => (x, y)

/-- The columns scanned by `won`, in scan order (`x` outer, `y` inner). -/
def cols : List (List Point) :=
  (List.range SIZE).map fun x => (List.range SIZE).map fun y => (x, y)

/-- The main diagonal scanned by `won` (`x = y`). -/
def diag : List Point :=
  (List.range SIZE).map fun y => (y, y)

/-- The anti-diagonal scanned by `won` (`x = size - 1 - y`). -/
def antidiag : List Point :=
  (List.range SIZE).map fun y => (SIZE - 1 - y, y)

/-- All lines `won` scans, in its check order: rows, then columns, then the
main diagonal, then the anti-diagonal. -/
def lines : List (List Point) :=
  rows ++ cols ++ [diag, antidiag]

/-- Operation `Board.won()`: scan the lines in order; on the first whose collected
`winning` list has length `size`, return `(True, winning)`; else
`(False, [])`. -/
def Board.won (b : Board) : Bool × List Point :=
  match lines.find? (fun l => (lineWinning b.fields b.opponent l).length == SIZE) with
  | some l => (true, lineWinning b.fields b.opponent l)
  | none => (false, [])

/-- The maximizing loop of `minimax`: `for x, y in self.fields: if EMPTY:
value = self.move(x, y).minimax(False)[0]; if value > best[0]: best =
(value, (x, y)); if value == WINNING: break`.  The recursive child
evaluation `self.move(x, y).minimax(False)` is abstracted as `eval`. -/
def maxLoop (eval : Board → Int × Option Point) (b : Board) :
    Int × Option Point → List Point → Int × Option Point
  | best, [] => best
  | best, p :: rest =>
    if cell b.fields p.1 p.2 = EMPTY then
      let value := (eval (b.moveAt p)).1
      if value > best.1 then
        if value = WINNING then (value, some p)
        else maxLoop eval b (value, some p) rest
      else maxLoop eval b best rest
    else maxLoop eval b best rest

/-- The minimizing loop of `minimax`: update on strictly smaller values,
`break` on `LOSING`. -/
def minLoop (eval : Board → Int × Option Point) (b : Board) :
    Int × Option Point → List Point → Int × Option Point
  | best, [] => best
  | best, p :: rest =>
    if cell b.fields p.1 p.2 = EMPTY then
      let value := (eval (b.moveAt p)).1
      if value < best.1 then
        if value = LOSING then (value, some p)
        else minLoop eval b (value, some p) rest
      else minLoop eval b best rest
    else minLoop eval b best rest

/-- Search `Board.minimax(is_opponent_move)`, with explicit fuel (see module
comment).  Base cases in source order: `won` first, then `no_empty`; then
the maximizing or minimizing scan over the dict keys, the recursive calls
running on one unit less fuel. -/
def minimaxAux : Nat → Board → Bool → Int × Option Point
  | 0, _, _ => (TIE, none)
  | fuel + 1, b, is_opponent_move =>
    if (b.won).1 then
      if is_opponent_move then (LOSING, none) else (WINNING, none)
    else if Board.no_empty b.fields then
      (TIE, none)
    else if is_opponent_move then
      maxLoop (fun c => minimaxAux fuel c false) b (INT32_MIN, none) coords
    else
      minLoop (fun c => minimaxAux fuel c true) b (INT32_MAX, none) coords

/-- Wrapper `Board.minimax`: any board has at most `SIZE * SIZE` empty cells (only
grid keys exist), so fuel `SIZE * SIZE + 1` is never exhausted — see
`minimaxAux_stable`. -/
def Board.minimax (b : Board) (is_opponent_move : Bool) : Int × Option Point :=
  minimaxAux (SIZE * SIZE + 1) b is_opponent_move

/-- Operation `Board.best()`: the move component of `minimax(True)`. -/
def Board.best (b : Board) : Option Point :=
  (b.minimax true).2

/-- The dict keys currently holding `EMPTY`, in iteration order: exactly the
cells the `minimax` loops recurse on. -/
def Board.emptyCells (b : Board) : List Point :=
  coords.filter fun p => cell b.fields p.1 p.2 == EMPTY

/-- Number of empty cells — the measure `minimax`'s recursion descends on. -/
def emptyCount (f : GameState) : Nat :=
  (coords.filter fun p => cell f p.1 p.2 == EMPTY).length

/-- Well-formedness of a board, true of every board the Python program ever
builds: the dict holds exactly the `SIZE²` grid keys (our list model has that
length), and `player` / `opponent` are actual marks, not `EMPTY` (they are
`TIC` / `TAC` at construction and are only ever swapped).  On boards
violating this the Python source itself misbehaves (a move would not reduce
the number of empty cells, so `minimax` would recurse forever), so theorems
about `minimax` assume it. -/
def Board.WF (b : Board) : Prop :=
  b.fields.length = SIZE * SIZE ∧ b.player ≠ EMPTY ∧ b.opponent ≠ EMPTY

instance (b : Board) : Decidable b.WF := by
  unfold Board.WF
  infer_instance

/-- Specification helper: a proof-search move ordering for the certificate
checkers below (centre, corners, edges).  It lists the same cells as
`coords`, only in a different order; the order only affects how fast the
checkers succeed, not what they certify. -/
def prio : List Point :=
  [(1, 1), (0, 0), (2, 0), (0, 2), (2, 2), (1, 0), (0, 1), (2, 1), (1, 2)]

/-- Specification helper: certificate checker for upper bounds on the
`minimax` score.  `chkLE fuel b flag v = true` certifies
`(b.minimax flag).1 ≤ v` (see `chkLE_sound`): at a maximizing node every
child must stay below the bound, at a minimizing node one child suffices. -/
def chkLE : Nat → Board → Bool → Int → Bool
  | 0, _, _, _ => false
  | fuel + 1, b, flag, v =>
    if (b.won).1 then decide ((if flag then LOSING else WINNING) ≤ v)
    else if Board.no_empty b.fields then decide (TIE ≤ v)
    else if flag then
      (prio.filter fun p => cell b.fields p.1 p.2 == EMPTY).all fun p =>
        chkLE fuel (b.moveAt p) false v
    else
      (prio.filter fun p => cell b.fields p.1 p.2 == EMPTY).any fun p =>
        chkLE fuel (b.moveAt p) true v

/-- Specification helper: certificate checker for lower bounds on the
`minimax` score, mirror image of `chkLE` (see `chkGE_sound`). -/
def chkGE : Nat → Board → Bool → Int → Bool
  | 0, _, _, _ => false
  | fuel + 1, b, flag, v =>
    if (b.won).1 then decide (v ≤ (if flag then LOSING else WINNING))
    else if Board.no_empty b.fields then decide (v ≤ TIE)
    else if flag then
      (prio.filter fun p => cell b.fields p.1 p.2 == EMPTY).any fun p =>
        chkGE fuel (b.moveAt p) false v
    else
      (prio.filter fun p => cell b.fields p.1 p.2 == EMPTY).all fun p =>
        chkGE fuel (b.moveAt p) true v

/-- Concrete board for witnesses: `X` has completed the top row (terminal,
won position; `O` to move, so `opponent = X`). -/
def bRow : Board :=
  { fields := [TIC, TIC, TIC, TAC, TAC, EMPTY, EMPTY, EMPTY, EMPTY]
    player := TAC
    opponent := TIC }

/-- Concrete board for witnesses: a completely full drawn board (no line for
either mark). -/
def bTie : Board :=
  { fields := [TIC, TAC, TIC, TIC, TAC, TAC, TAC, TIC, TIC]
    player := TAC
    opponent := TIC }

/-- Concrete board for witnesses: exactly one empty cell `(2, 0)`, nobody has
won, and placing `X` (the player to move) there completes the top row. -/
def bOne : Board :=
  { fields := [TIC, TIC, EMPTY, TAC, TAC, TIC, TAC, TIC, TAC]
    player := TIC
    opponent := TAC }

/-- Concrete board for witnesses: two empty cells `(0, 2)` and `(1, 2)`,
nobody has won, `X` to move. -/
def bTwo : Board :=
  { fields := [TIC, TAC, TIC, TAC, TIC, TAC, EMPTY, EMPTY, TAC]
    player := TIC
    opponent := TAC }

/-! ### A fast arithmetic encoding of the checkers

The two checkers above mirror the board structure directly, which is
convenient for the soundness proofs but slow to evaluate inside the kernel.
For the one closed-board computation we need (the full-game certificate from
the empty board) we re-express them over a base-4 integer encoding of the
cell list and prove the translation exact (`chkLEN_bridge`, `chkGEN_bridge`);
the kernel then runs almost entirely on machine-level `Nat` arithmetic. -/

/-- Cell codes: `EMPTY ↦ 0`, `TIC ↦ 1`, `TAC ↦ 2`, `WIN_MARKER ↦ 3`. -/
def encE : Entry → Nat
  | Entry.Dot => 0
  | Entry.X => 1
  | Entry.O => 2
  | Entry.Wmark => 3

/-- The cell list as a base-4 numeral, least-significant digit first. -/
def encF : GameState → Nat
  | [] => 0
  | e :: rest => encE e + 4 * encF rest

/-- Digit extraction: `dig n i` is the base-4 digit of `n` at position `i`. -/
def dig (n i : Nat) : Nat := n / 4 ^ i % 4

/-- One line test on the encoded board: all three digits equal `o`. -/
def lineN (n o a b c : Nat) : Bool :=
  (dig n a == o) && (dig n b == o) && (dig n c == o)

/-- Encoded win test — the eight lines in `won`'s scan order, by digit
index `y * SIZE + x`. -/
def wonN (n o : Nat) : Bool :=
  lineN n o 0 1 2 || lineN n o 3 4 5 || lineN n o 6 7 8 ||
  lineN n o 0 3 6 || lineN n o 1 4 7 || lineN n o 2 5 8 ||
  lineN n o 0 4 8 || lineN n o 2 4 6

/-- Encoded full-board test: no digit is `0`. -/
def fullN (n : Nat) : Bool :=
  (dig n 0 != 0) && (dig n 1 != 0) && (dig n 2 != 0) &&
  (dig n 3 != 0) && (dig n 4 != 0) && (dig n 5 != 0) &&
  (dig n 6 != 0) && (dig n 7 != 0) && (dig n 8 != 0)

/-- The digit indexes of the `prio` cells (`prioIdx_eq`). -/
def prioIdx : List Nat := [4, 0, 2, 6, 8, 1, 3, 5, 7]

/-- Encoded form of `chkLE`: board digits `n`, player code `pc`, opponent
code `oc`; placing the player's mark on empty digit `i` adds `pc * 4 ^ i`. -/
def chkLEN : Nat → Nat → Nat → Nat → Bool → Int → Bool
  | 0, _, _, _, _, _ => false
  | fuel + 1, n, pc, oc, flag, v =>
    if wonN n oc then decide ((if flag then LOSING else WINNING) ≤ v)
    else if fullN n then decide (TIE ≤ v)
    else if flag then
      (prioIdx.filter fun i => dig n i == 0).all fun i =>
        chkLEN fuel (n + pc * 4 ^ i) oc pc false v
    else
      (prioIdx.filter fun i => dig n i == 0).any fun i =>
        chkLEN fuel (n + pc * 4 ^ i) oc pc true v

/-- Encoded form of `chkGE`. -/
def chkGEN : Nat → Nat → Nat → Nat → Bool → Int → Bool
  | 0, _, _, _, _, _ => false
  | fuel + 1, n, pc, oc, flag, v =>
    if wonN n oc then decide (v ≤ (if flag then LOSING else WINNING))
    else if fullN n then decide (v ≤ TIE)
    else if flag then
      (prioIdx.filter fun i => dig n i == 0).any fun i =>
        chkGEN fuel (n + pc * 4 ^ i) oc pc false v
    else
      (prioIdx.filter fun i => dig n i == 0).all fun i =>
        chkGEN fuel (n + pc * 4 ^ i) oc pc true v

/-! ### Lemmas about the search loops

`cv p` below abbreviates the child evaluation `(eval (b.moveAt p)).1`, the
score the loop reads off for candidate cell `p`. -/

/-- Skipping the filter: the loops ignore non-empty cells, so running them on
a key list is running them on its empty-cell sublist. -/
theorem maxLoop_filter (ev : Board → Int × Option Point) (b : Board) :
    ∀ (l : List Point) (best : Int × Option Point),
      maxLoop ev b best l =
        maxLoop ev b best (l.filter fun p => cell b.fields p.1 p.2 == EMPTY) := by
  intro l
  induction l with
  | nil => intro best; rfl
  | cons p rest ih =>
    intro best
    by_cases hc : cell b.fields p.1 p.2 = EMPTY
    · rw [List.filter_cons_of_pos (by simp [hc])]
      simp only [maxLoop, if_pos hc]
      split_ifs <;> first | rfl | exact ih _
    · rw [List.filter_cons_of_neg (by simp [hc])]
      simp only [maxLoop, if_neg hc]
      exact ih best

/-- The running best value never decreases. -/
theorem maxLoop_fst_mono (ev : Board → Int × Option Point) (b : Board) :
    ∀ (l : List Point) (best : Int × Option Point),
      best.1 ≤ (maxLoop ev b best l).1 := by
  intro l
  induction l with
  | nil => intro best; exact le_refl _
  | cons p rest ih =>
    intro best
    simp only [maxLoop]
    split_ifs with hc hv hw
    · exact le_of_lt hv
    · exact le_trans (le_of_lt hv) (ih _)
    · exact ih best
    · exact ih best

/-- The loop result is either the initial best pair or the evaluation of one
of the empty candidate cells in the list. -/
theorem maxLoop_attain (ev : Board → Int × Option Point) (b : Board) :
    ∀ (l : List Point) (best : Int × Option Point),
      maxLoop ev b best l = best ∨
        ∃ p ∈ l, cell b.fields p.1 p.2 = EMPTY ∧
          maxLoop ev b best l = ((ev (b.moveAt p)).1, some p) := by
  intro l
  induction l with
  | nil => intro best; exact Or.inl rfl
  | cons p rest ih =>
    intro best
    simp only [maxLoop]
    split_ifs with hc hv hw
    · exact Or.inr ⟨p, by simp, hc, rfl⟩
    · rcases ih ((ev (b.moveAt p)).1, some p) with h | ⟨q, hq, hqe, hqr⟩
      · exact Or.inr ⟨p, by simp, hc, h⟩
      · exact Or.inr ⟨q, by simp [hq], hqe, hqr⟩
    · rcases ih best with h | ⟨q, hq, hqe, hqr⟩
      · exact Or.inl h
      · exact Or.inr ⟨q, by simp [hq], hqe, hqr⟩
    · rcases ih best with h | ⟨q, hq, hqe, hqr⟩
      · exact Or.inl h
      · exact Or.inr ⟨q, by simp [hq], hqe, hqr⟩

/-- If some empty candidate strictly beats the initial best value, the loop
result strictly beats it too. -/
theorem maxLoop_improve (ev : Board → Int × Option Point) (b : Board) :
    ∀ (l : List Point) (best : Int × Option Point),
      (∃ p ∈ l, cell b.fields p.1 p.2 = EMPTY ∧ best.1 < (ev (b.moveAt p)).1) →
      best.1 < (maxLoop ev b best l).1 := by
  intro l
  induction l with
  | nil => rintro best ⟨p, hp, -, -⟩; cases hp
  | cons p rest ih =>
    rintro best ⟨q, hq, hqe, hqv⟩
    simp only [maxLoop]
    split_ifs with hc hv hw
    · exact hv
    · exact lt_of_lt_of_le hv (maxLoop_fst_mono ev b rest _)
    · rcases List.mem_cons.1 hq with rfl | hq'
      · exact absurd hqv (by exact fun h => hv (by exact h))
      · exact ih best ⟨q, hq', hqe, hqv⟩
    · rcases List.mem_cons.1 hq with rfl | hq'
      · exact absurd hqe hc
      · exact ih best ⟨q, hq', hqe, hqv⟩

/-- Provided every candidate value is at most `WINNING` (so that the early
`break` on `WINNING` loses nothing), the loop result dominates every empty
candidate of the list. -/
theorem maxLoop_ub (ev : Board → Int × Option Point) (b : Board) :
    ∀ (l : List Point) (best : Int × Option Point),
      (∀ p ∈ l, cell b.fields p.1 p.2 = EMPTY → (ev (b.moveAt p)).1 ≤ WINNING) →
      ∀ p ∈ l, cell b.fields p.1 p.2 = EMPTY →
        (ev (b.moveAt p)).1 ≤ (maxLoop ev b best l).1 := by
  intro l
  induction l with
  | nil => intro best _ p hp; cases hp
  | cons p rest ih =>
    intro best hbound q hq hqe
    simp only [maxLoop]
    split_ifs with hc hv hw
    · -- broke with value = WINNING: every candidate is ≤ WINNING
      simpa [hw] using hbound q hq hqe
    · rcases List.mem_cons.1 hq with rfl | hq'
      · exact le_trans (le_refl _) (maxLoop_fst_mono ev b rest _)
      · exact ih _ (fun r hr hre => hbound r (by simp [hr]) hre) q hq' hqe
    · rcases List.mem_cons.1 hq with rfl | hq'
      · exact le_trans (not_lt.1 hv) (maxLoop_fst_mono ev b rest best)
      · exact ih best (fun r hr hre => hbound r (by simp [hr]) hre) q hq' hqe
    · rcases List.mem_cons.1 hq with rfl | hq'
      · exact absurd hqe hc
      · exact ih best (fun r hr hre => hbound r (by simp [hr]) hre) q hq' hqe

/-- Evaluating the loop with two child evaluators that agree (in score) on
every empty cell of the list gives the same result. -/
theorem maxLoop_congr (ev₁ ev₂ : Board → Int × Option Point) (b : Board) :
    ∀ (l : List Point) (best : Int × Option Point),
      (∀ p ∈ l, cell b.fields p.1 p.2 = EMPTY →
        (ev₁ (b.moveAt p)).1 = (ev₂ (b.moveAt p)).1) →
      maxLoop ev₁ b best l = maxLoop ev₂ b best l := by
  intro l
  induction l with
  | nil => intro best _; rfl
  | cons p rest ih =>
    intro best hagree
    simp only [maxLoop]
    by_cases hc : cell b.fields p.1 p.2 = EMPTY
    · have hp := hagree p (by simp) hc
      rw [if_pos hc, if_pos hc, hp]
      have hrest : ∀ q ∈ rest, cell b.fields q.1 q.2 = EMPTY →
          (ev₁ (b.moveAt q)).1 = (ev₂ (b.moveAt q)).1 :=
        fun q hq hqe => hagree q (by simp [hq]) hqe
      split_ifs <;> first | rfl | exact ih _ hrest
    · rw [if_neg hc, if_neg hc]
      exact ih best fun q hq hqe => hagree q (by simp [hq]) hqe

/-- A loop run that does not improve the best value returns the initial best
pair unchanged (updates are strict, so the value only stays put when no
update at all fires). -/
theorem maxLoop_stay (ev : Board → Int × Option Point) (b : Board) :
    ∀ (l : List Point) (best : Int × Option Point),
      (maxLoop ev b best l).1 = best.1 → maxLoop ev b best l = best := by
  intro l
  induction l with
  | nil => intro best _; rfl
  | cons p rest ih =>
    intro best
    simp only [maxLoop]
    split_ifs with hc hv hw
    · intro h
      exact absurd (h ▸ hv) (lt_irrefl _)
    · intro h
      have := maxLoop_fst_mono ev b rest ((ev (b.moveAt p)).1, some p)
      simp only [h] at this
      exact absurd (lt_of_lt_of_le hv this) (lt_irrefl _)
    · exact ih best
    · exact ih best

/-- Tie-break: on a list of empty cells whose values do not exceed `WINNING`,
if the loop improved on the initial best then the move it returns is the
FIRST cell of the list achieving the final value. -/
theorem maxLoop_find (ev : Board → Int × Option Point) (b : Board) :
    ∀ (l : List Point) (best : Int × Option Point),
      (∀ p ∈ l, cell b.fields p.1 p.2 = EMPTY) →
      (∀ p ∈ l, (ev (b.moveAt p)).1 ≤ WINNING) →
      best.1 < (maxLoop ev b best l).1 →
      (maxLoop ev b best l).2 =
        l.find? fun p => (ev (b.moveAt p)).1 == (maxLoop ev b best l).1 := by
  intro l
  induction l with
  | nil => intro best _ _ h; exact absurd h (lt_irrefl _)
  | cons p rest ih =>
    intro best hemp hbound himp
    have hc : cell b.fields p.1 p.2 = EMPTY := hemp p (by simp)
    have hemp' : ∀ q ∈ rest, cell b.fields q.1 q.2 = EMPTY :=
      fun q hq => hemp q (by simp [hq])
    have hbound' : ∀ q ∈ rest, (ev (b.moveAt q)).1 ≤ WINNING :=
      fun q hq => hbound q (by simp [hq])
    simp only [maxLoop, if_pos hc] at himp ⊢
    split_ifs at himp ⊢ with hv hw
    · rw [List.find?_cons_of_pos _ (by simp)]
    · by_cases hlt :
        (ev (b.moveAt p)).1 < (maxLoop ev b ((ev (b.moveAt p)).1, some p) rest).1
      · rw [List.find?_cons_of_neg _ (by simpa using ne_of_lt hlt)]
        exact ih ((ev (b.moveAt p)).1, some p) hemp' hbound' hlt
      · have hle := maxLoop_fst_mono ev b rest ((ev (b.moveAt p)).1, some p)
        have heq : (maxLoop ev b ((ev (b.moveAt p)).1, some p) rest).1 =
            ((ev (b.moveAt p)).1, some p).1 :=
          le_antisymm (not_lt.1 hlt) hle
        rw [maxLoop_stay ev b rest _ heq]
        rw [List.find?_cons_of_pos _ (by simp)]
    · have hne : (ev (b.moveAt p)).1 < (maxLoop ev b best rest).1 :=
        lt_of_le_of_lt (not_lt.1 hv) himp
      rw [List.find?_cons_of_neg _ (by simpa using ne_of_lt hne)]
      exact ih best hemp' hbound' himp

/-! ### The mirror-image lemmas for the minimizing loop -/

/-- Lemma `maxLoop_filter`, for `minLoop`. -/
theorem minLoop_filter (ev : Board → Int × Option Point) (b : Board) :
    ∀ (l : List Point) (best : Int × Option Point),
      minLoop ev b best l =
        minLoop ev b best (l.filter fun p => cell b.fields p.1 p.2 == EMPTY) := by
  intro l
  induction l with
  | nil => intro best; rfl
  | cons p rest ih =>
    intro best
    by_cases hc : cell b.fields p.1 p.2 = EMPTY
    · rw [List.filter_cons_of_pos (by simp [hc])]
      simp only [minLoop, if_pos hc]
      split_ifs <;> first | rfl | exact ih _
    · rw [List.filter_cons_of_neg (by simp [hc])]
      simp only [minLoop, if_neg hc]
      exact ih best

/-- Lemma `maxLoop_fst_mono`, for `minLoop`: the running best value never
increases. -/
theorem minLoop_fst_mono (ev : Board → Int × Option Point) (b : Board) :
    ∀ (l : List Point) (best : Int × Option Point),
      (minLoop ev b best l).1 ≤ best.1 := by
  intro l
  induction l with
  | nil => intro best; exact le_refl _
  | cons p rest ih =>
    intro best
    simp only [minLoop]
    split_ifs with hc hv hw
    · exact le_of_lt hv
    · exact le_trans (ih _) (le_of_lt hv)
    · exact ih best
    · exact ih best

/-- Lemma `maxLoop_attain`, for `minLoop`. -/
theorem minLoop_attain (ev : Board → Int × Option Point) (b : Board) :
    ∀ (l : List Point) (best : Int × Option Point),
      minLoop ev b best l = best ∨
        ∃ p ∈ l, cell b.fields p.1 p.2 = EMPTY ∧
          minLoop ev b best l = ((ev (b.moveAt p)).1, some p) := by
  intro l
  induction l with
  | nil => intro best; exact Or.inl rfl
  | cons p rest ih =>
    intro best
    simp only [minLoop]
    split_ifs with hc hv hw
    · exact Or.inr ⟨p, by simp, hc, rfl⟩
    · rcases ih ((ev (b.moveAt p)).1, some p) with h | ⟨q, hq, hqe, hqr⟩
      · exact Or.inr ⟨p, by simp, hc, h⟩
      · exact Or.inr ⟨q, by simp [hq], hqe, hqr⟩
    · rcases ih best with h | ⟨q, hq, hqe, hqr⟩
      · exact Or.inl h
      · exact Or.inr ⟨q, by simp [hq], hqe, hqr⟩
    · rcases ih best with h | ⟨q, hq, hqe, hqr⟩
      · exact Or.inl h
      · exact Or.inr ⟨q, by simp [hq], hqe, hqr⟩

/-- Lemma `maxLoop_improve`, for `minLoop`. -/
theorem minLoop_improve (ev : Board → Int × Option Point) (b : Board) :
    ∀ (l : List Point) (best : Int × Option Point),
      (∃ p ∈ l, cell b.fields p.1 p.2 = EMPTY ∧ (ev (b.moveAt p)).1 < best.1) →
      (minLoop ev b best l).1 < best.1 := by
  intro l
  induction l with
  | nil => rintro best ⟨p, hp, -, -⟩; cases hp
  | cons p rest ih =>
    rintro best ⟨q, hq, hqe, hqv⟩
    simp only [minLoop]
    split_ifs with hc hv hw
    · exact hv
    · exact lt_of_le_of_lt (minLoop_fst_mono ev b rest _) hv
    · rcases List.mem_cons.1 hq with rfl | hq'
      · exact absurd hqv (by exact fun h => hv (by exact h))
      · exact ih best ⟨q, hq', hqe, hqv⟩
    · rcases List.mem_cons.1 hq with rfl | hq'
      · exact absurd hqe hc
      · exact ih best ⟨q, hq', hqe, hqv⟩

/-- Lemma `maxLoop_ub`, for `minLoop`: provided every candidate value is at
least `LOSING` (so the early `break` on `LOSING` loses nothing), the loop
result is below every empty candidate of the list. -/
theorem minLoop_lb (ev : Board → Int × Option Point) (b : Board) :
    ∀ (l : List Point) (best : Int × Option Point),
      (∀ p ∈ l, cell b.fields p.1 p.2 = EMPTY → LOSING ≤ (ev (b.moveAt p)).1) →
      ∀ p ∈ l, cell b.fields p.1 p.2 = EMPTY →
        (minLoop ev b best l).1 ≤ (ev (b.moveAt p)).1 := by
  intro l
  induction l with
  | nil => intro best _ p hp; cases hp
  | cons p rest ih =>
    intro best hbound q hq hqe
    simp only [minLoop]
    split_ifs with hc hv hw
    · simpa [hw] using hbound q hq hqe
    · rcases List.mem_cons.1 hq with rfl | hq'
      · exact le_trans (minLoop_fst_mono ev b rest _) (le_refl _)
      · exact ih _ (fun r hr hre => hbound r (by simp [hr]) hre) q hq' hqe
    · rcases List.mem_cons.1 hq with rfl | hq'
      · exact le_trans (minLoop_fst_mono ev b rest best) (not_lt.1 hv)
      · exact ih best (fun r hr hre => hbound r (by simp [hr]) hre) q hq' hqe
    · rcases List.mem_cons.1 hq with rfl | hq'
      · exact absurd hqe hc
      · exact ih best (fun r hr hre => hbound r (by simp [hr]) hre) q hq' hqe

/-- Lemma `maxLoop_congr`, for `minLoop`. -/
theorem minLoop_congr (ev₁ ev₂ : Board → Int × Option Point) (b : Board) :
    ∀ (l : List Point) (best : Int × Option Point),
      (∀ p ∈ l, cell b.fields p.1 p.2 = EMPTY →
        (ev₁ (b.moveAt p)).1 = (ev₂ (b.moveAt p)).1) →
      minLoop ev₁ b best l = minLoop ev₂ b best l := by
  intro l
  induction l with
  | nil => intro best _; rfl
  | cons p rest ih =>
    intro best hagree
    simp only [minLoop]
    by_cases hc : cell b.fields p.1 p.2 = EMPTY
    · have hp := hagree p (by simp) hc
      rw [if_pos hc, if_pos hc, hp]
      have hrest : ∀ q ∈ rest, cell b.fields q.1 q.2 = EMPTY →
          (ev₁ (b.moveAt q)).1 = (ev₂ (b.moveAt q)).1 :=
        fun q hq hqe => hagree q (by simp [hq]) hqe
      split_ifs <;> first | rfl | exact ih _ hrest
    · rw [if_neg hc, if_neg hc]
      exact ih best fun q hq hqe => hagree q (by simp [hq]) hqe

/-- Lemma `maxLoop_stay`, for `minLoop`. -/
theorem minLoop_stay (ev : Board → Int × Option Point) (b : Board) :
    ∀ (l : List Point) (best : Int × Option Point),
      (minLoop ev b best l).1 = best.1 → minLoop ev b best l = best := by
  intro l
  induction l with
  | nil => intro best _; rfl
  | cons p rest ih =>
    intro best
    simp only [minLoop]
    split_ifs with hc hv hw
    · intro h
      exact absurd (h ▸ hv) (lt_irrefl _)
    · intro h
      have := minLoop_fst_mono ev b rest ((ev (b.moveAt p)).1, some p)
      simp only [h] at this
      exact absurd (lt_of_le_of_lt this hv) (lt_irrefl _)
    · exact ih best
    · exact ih best

/-- Lemma `maxLoop_find`, for `minLoop`. -/
theorem minLoop_find (ev : Board → Int × Option Point) (b : Board) :
    ∀ (l : List Point) (best : Int × Option Point),
      (∀ p ∈ l, cell b.fields p.1 p.2 = EMPTY) →
      (∀ p ∈ l, LOSING ≤ (ev (b.moveAt p)).1) →
      (minLoop ev b best l).1 < best.1 →
      (minLoop ev b best l).2 =
        l.find? fun p => (ev (b.moveAt p)).1 == (minLoop ev b best l).1 := by
  intro l
  induction l with
  | nil => intro best _ _ h; exact absurd h (lt_irrefl _)
  | cons p rest ih =>
    intro best hemp hbound himp
    have hc : cell b.fields p.1 p.2 = EMPTY := hemp p (by simp)
    have hemp' : ∀ q ∈ rest, cell b.fields q.1 q.2 = EMPTY :=
      fun q hq => hemp q (by simp [hq])
    have hbound' : ∀ q ∈ rest, LOSING ≤ (ev (b.moveAt q)).1 :=
      fun q hq => hbound q (by simp [hq])
    simp only [minLoop, if_pos hc] at himp ⊢
    split_ifs at himp ⊢ with hv hw
    · rw [List.find?_cons_of_pos _ (by simp)]
    · by_cases hlt :
        (minLoop ev b ((ev (b.moveAt p)).1, some p) rest).1 < (ev (b.moveAt p)).1
      · rw [List.find?_cons_of_neg _ (by simpa using (ne_of_lt hlt).symm)]
        exact ih ((ev (b.moveAt p)).1, some p) hemp' hbound' hlt
      · have hle := minLoop_fst_mono ev b rest ((ev (b.moveAt p)).1, some p)
        have heq : (minLoop ev b ((ev (b.moveAt p)).1, some p) rest).1 =
            ((ev (b.moveAt p)).1, some p).1 :=
          le_antisymm hle (not_lt.1 hlt)
        rw [minLoop_stay ev b rest _ heq]
        rw [List.find?_cons_of_pos _ (by simp)]
    · have hne : (minLoop ev b best rest).1 < (ev (b.moveAt p)).1 :=
        lt_of_lt_of_le himp (not_lt.1 hv)
      rw [List.find?_cons_of_neg _ (by simpa using (ne_of_lt hne).symm)]
      exact ih best hemp' hbound' himp

/-! ### The board model: cells, moves and the empty-cell measure -/

/-- Membership in the dict key list is exactly being a grid coordinate. -/
theorem mem_coords {p : Point} : p ∈ coords ↔ p.1 < SIZE ∧ p.2 < SIZE := by
  constructor
  · intro h
    simp only [coords, List.mem_flatMap, List.mem_map, List.mem_range] at h
    obtain ⟨y, hy, x, hx, hp⟩ := h
    subst hp
    exact ⟨hx, hy⟩
  · rintro ⟨h1, h2⟩
    simp only [coords, List.mem_flatMap, List.mem_map, List.mem_range]
    exact ⟨p.2, h2, p.1, h1, by simp⟩

/-- The row-major index of a grid coordinate is below `SIZE²`. -/
theorem idx_lt {p : Point} (h : p ∈ coords) : p.2 * SIZE + p.1 < SIZE * SIZE := by
  have h' := mem_coords.1 h
  simp only [SIZE] at h' ⊢
  omega

/-- The row-major index is injective on grid coordinates. -/
theorem idx_inj {p q : Point} (hp : p ∈ coords) (hq : q ∈ coords)
    (h : p.2 * SIZE + p.1 = q.2 * SIZE + q.1) : p = q := by
  have h1 := mem_coords.1 hp
  have h2 := mem_coords.1 hq
  rcases p with ⟨px, py⟩
  rcases q with ⟨qx, qy⟩
  simp only [SIZE] at h1 h2 h
  have : px = qx ∧ py = qy := by omega
  simp [this.1, this.2]

/-- After `move`, the target cell holds the mark that was `player`. -/
theorem cell_moveAt_self (b : Board) {p : Point} (hp : p ∈ coords)
    (hlen : b.fields.length = SIZE * SIZE) :
    cell (b.moveAt p).fields p.1 p.2 = b.player := by
  unfold cell Board.moveAt
  simp only
  rw [List.getD_eq_getElem?_getD,
    List.getElem?_set_eq_of_lt _ (by rw [hlen]; exact idx_lt hp)]
  rfl

/-- After `move`, every other cell of the grid is unchanged. -/
theorem cell_moveAt_ne (b : Board) {p q : Point} (hp : p ∈ coords)
    (hq : q ∈ coords) (hne : q ≠ p) :
    cell (b.moveAt p).fields q.1 q.2 = cell b.fields q.1 q.2 := by
  unfold cell Board.moveAt
  simp only
  have hidx : p.2 * SIZE + p.1 ≠ q.2 * SIZE + q.1 := fun h =>
    hne (idx_inj hp hq h).symm
  rw [List.getD_eq_getElem?_getD, List.getD_eq_getElem?_getD,
    List.getElem?_set_ne hidx]

/-- Counting helper: a pointwise-stronger predicate keeps no more list
elements. -/
theorem length_filter_le_of_imp {α : Type} (P Q : α → Bool) :
    ∀ l : List α, (∀ a ∈ l, P a = true → Q a = true) →
      (l.filter P).length ≤ (l.filter Q).length := by
  intro l
  induction l with
  | nil => intro _; exact le_refl _
  | cons a l ih =>
    intro h
    have h' : ∀ x ∈ l, P x = true → Q x = true := fun x hx => h x (by simp [hx])
    by_cases hP : P a = true
    · have hQ := h a (by simp) hP
      simp only [List.filter_cons, hP, hQ, if_pos, List.length_cons]
      exact Nat.succ_le_succ (ih h')
    · rw [List.filter_cons_of_neg (by simpa using hP)]
      by_cases hQ : Q a = true
      · rw [List.filter_cons_of_pos hQ]
        exact le_trans (ih h') (Nat.le_succ _)
      · rw [List.filter_cons_of_neg (by simpa using hQ)]
        exact ih h'

/-- Counting helper: if additionally some listed element satisfies `Q` but
not `P`, strictly fewer elements are kept. -/
theorem length_filter_lt {α : Type} (P Q : α → Bool) :
    ∀ (l : List α) (a : α), a ∈ l → P a = false → Q a = true →
      (∀ x ∈ l, P x = true → Q x = true) →
      (l.filter P).length < (l.filter Q).length := by
  intro l
  induction l with
  | nil => intro a ha; cases ha
  | cons b l ih =>
    intro a ha hPa hQa h
    have h' : ∀ x ∈ l, P x = true → Q x = true := fun x hx => h x (by simp [hx])
    rcases List.mem_cons.1 ha with rfl | ha'
    · rw [List.filter_cons_of_neg (by simpa using hPa), List.filter_cons_of_pos hQa]
      exact Nat.lt_succ_of_le (length_filter_le_of_imp P Q l h')
    · by_cases hP : P b = true
      · have hQ := h b (by simp) hP
        rw [List.filter_cons_of_pos hP, List.filter_cons_of_pos hQ]
        exact Nat.succ_lt_succ (ih a ha' hPa hQa h')
      · rw [List.filter_cons_of_neg (by simpa using hP)]
        by_cases hQ : Q b = true
        · rw [List.filter_cons_of_pos hQ]
          exact Nat.lt_succ_of_lt (ih a ha' hPa hQa h')
        · rw [List.filter_cons_of_neg (by simpa using hQ)]
          exact ih a ha' hPa hQa h'

/-- A board never has more than `SIZE²` empty cells. -/
theorem emptyCount_le (f : GameState) : emptyCount f ≤ SIZE * SIZE := by
  unfold emptyCount
  exact le_trans (List.length_filter_le _ _) (by decide)

/-- Applying a move on an empty grid cell strictly decreases the number of
empty cells — the well-foundedness of `minimax`'s recursion. -/
theorem emptyCount_moveAt (b : Board) {p : Point} (hmem : p ∈ coords)
    (hemp : cell b.fields p.1 p.2 = EMPTY) (hpl : b.player ≠ EMPTY)
    (hlen : b.fields.length = SIZE * SIZE) :
    emptyCount (b.moveAt p).fields < emptyCount b.fields := by
  unfold emptyCount
  apply length_filter_lt _ _ coords p hmem
  · simp [cell_moveAt_self b hmem hlen, hpl]
  · simp [hemp]
  · intro q hq hPq
    by_cases hqp : q = p
    · subst hqp
      rw [cell_moveAt_self b hmem hlen] at hPq
      simp only [beq_iff_eq] at hPq
      exact absurd hPq hpl
    · rwa [cell_moveAt_ne b hmem hq hqp] at hPq

/-- Moves preserve well-formedness. -/
theorem WF_moveAt {b : Board} (h : b.WF) (p : Point) : (b.moveAt p).WF := by
  obtain ⟨hlen, hpl, hop⟩ := h
  refine ⟨?_, hop, hpl⟩
  simpa [Board.moveAt] using hlen

/-! ### Fuel irrelevance and the unfolding equation of `minimax` -/

/-- One-step unfolding of `minimaxAux` at non-zero fuel. -/
theorem minimaxAux_succ (fuel : Nat) (b : Board) (m : Bool) :
    minimaxAux (fuel + 1) b m =
      if (b.won).1 then (if m then (LOSING, none) else (WINNING, none))
      else if Board.no_empty b.fields then (TIE, none)
      else if m then
        maxLoop (fun c => minimaxAux fuel c false) b (INT32_MIN, none) coords
      else
        minLoop (fun c => minimaxAux fuel c true) b (INT32_MAX, none) coords := by
  simp only [minimaxAux]

/-- Fuel irrelevance: on a well-formed board any fuel beyond the number of
empty cells produces the same search result — the recursion always
completes within `emptyCount` depth. -/
theorem minimaxAux_stable :
    ∀ (f₁ f₂ : Nat) (b : Board) (flag : Bool), b.WF →
      emptyCount b.fields < f₁ → emptyCount b.fields < f₂ →
      minimaxAux f₁ b flag = minimaxAux f₂ b flag := by
  intro f₁
  induction f₁ with
  | zero => intro f₂ b flag _ h1 _; omega
  | succ f₁ ih =>
    intro f₂ b flag hwf h1 h2
    obtain ⟨f₂', rfl⟩ : ∃ k, f₂ = k + 1 := ⟨f₂ - 1, by omega⟩
    simp only [minimaxAux]
    have hagree : ∀ (fl : Bool) (p : Point), p ∈ coords →
        cell b.fields p.1 p.2 = EMPTY →
        minimaxAux f₁ (b.moveAt p) fl = minimaxAux f₂' (b.moveAt p) fl := by
      intro fl p hp hpe
      have hdec := emptyCount_moveAt b hp hpe hwf.2.1 hwf.1
      exact ih f₂' (b.moveAt p) fl (WF_moveAt hwf p) (by omega) (by omega)
    split_ifs
    · rfl
    · rfl
    · rfl
    · exact maxLoop_congr (fun c => minimaxAux f₁ c false)
        (fun c => minimaxAux f₂' c false) b coords (INT32_MIN, none)
        fun p hp hpe => congrArg Prod.fst (hagree false p hp hpe)
    · exact minLoop_congr (fun c => minimaxAux f₁ c true)
        (fun c => minimaxAux f₂' c true) b coords (INT32_MAX, none)
        fun p hp hpe => congrArg Prod.fst (hagree true p hp hpe)

/-- Unfolding equation of `Board.minimax` on well-formed boards: base cases
in source order (`won` first, then full board), then the maximizing or
minimizing scan whose children are evaluated by `Board.minimax` itself. -/
theorem minimax_eq (b : Board) (flag : Bool) (hwf : b.WF) :
    b.minimax flag =
      if (b.won).1 then (if flag then (LOSING, none) else (WINNING, none))
      else if Board.no_empty b.fields then (TIE, none)
      else if flag then
        maxLoop (fun c => c.minimax false) b (INT32_MIN, none) coords
      else
        minLoop (fun c => c.minimax true) b (INT32_MAX, none) coords := by
  show minimaxAux (SIZE * SIZE + 1) b flag = _
  rw [minimaxAux_succ]
  have hagree : ∀ (fl : Bool) (p : Point), p ∈ coords →
      cell b.fields p.1 p.2 = EMPTY →
      minimaxAux (SIZE * SIZE) (b.moveAt p) fl = (b.moveAt p).minimax fl := by
    intro fl p hp hpe
    have hdec := emptyCount_moveAt b hp hpe hwf.2.1 hwf.1
    have hle := emptyCount_le b.fields
    exact minimaxAux_stable (SIZE * SIZE) (SIZE * SIZE + 1) (b.moveAt p) fl
      (WF_moveAt hwf p) (by omega) (by omega)
  split_ifs
  · rfl
  · rfl
  · rfl
  · exact maxLoop_congr (fun c => minimaxAux (SIZE * SIZE) c false)
      (fun c => c.minimax false) b coords (INT32_MIN, none)
      fun p hp hpe => congrArg Prod.fst (hagree false p hp hpe)
  · exact minLoop_congr (fun c => minimaxAux (SIZE * SIZE) c true)
      (fun c => c.minimax true) b coords (INT32_MAX, none)
      fun p hp hpe => congrArg Prod.fst (hagree true p hp hpe)

/-- The helper `no_empty` is false exactly when some grid cell is empty. -/
theorem no_empty_false_iff (f : GameState) :
    Board.no_empty f = false ↔ ∃ p ∈ coords, cell f p.1 p.2 = EMPTY := by
  unfold Board.no_empty
  rw [← Bool.not_eq_true, List.all_eq_true]
  constructor
  · intro h
    by_contra hno
    push_neg at hno
    exact h fun p hp => by simpa using hno p hp
  · rintro ⟨p, hp, hpe⟩ h
    have := h p hp
    simp [hpe] at this

/-- Every `minimax` score — at any fuel, on any board — lies between
`LOSING` and `WINNING`. -/
theorem minimaxAux_range :
    ∀ (fuel : Nat) (b : Board) (flag : Bool),
      LOSING ≤ (minimaxAux fuel b flag).1 ∧ (minimaxAux fuel b flag).1 ≤ WINNING := by
  intro fuel
  induction fuel with
  | zero =>
    intro b flag
    have h0 : minimaxAux 0 b flag = (TIE, none) := rfl
    rw [h0]
    constructor <;> norm_num [TIE, LOSING, WINNING]
  | succ fuel ih =>
    intro b flag
    simp only [minimaxAux]
    by_cases hwon : (b.won).1 = true
    · rw [if_pos hwon]
      by_cases hflag : flag = true
      · rw [if_pos hflag]
        constructor <;> norm_num [LOSING, WINNING]
      · rw [if_neg hflag]
        constructor <;> norm_num [LOSING, WINNING]
    · rw [if_neg hwon]
      by_cases hfull : Board.no_empty b.fields = true
      · rw [if_pos hfull]
        constructor <;> norm_num [TIE, LOSING, WINNING]
      · rw [if_neg hfull]
        obtain ⟨p, hp, hpe⟩ :=
          (no_empty_false_iff b.fields).1 (by simpa using hfull)
        by_cases hflag : flag = true
        · rw [if_pos hflag]
          have himp := maxLoop_improve (fun c => minimaxAux fuel c false) b coords
            (INT32_MIN, none)
            ⟨p, hp, hpe, by
              have := (ih (b.moveAt p) false).1
              simp only [INT32_MIN, LOSING] at this ⊢
              omega⟩
          rcases maxLoop_attain (fun c => minimaxAux fuel c false) b coords
            (INT32_MIN, none) with heq | ⟨q, _, _, hqr⟩
          · rw [heq] at himp
            exact absurd himp (lt_irrefl _)
          · rw [hqr]
            exact ih (b.moveAt q) false
        · rw [if_neg hflag]
          have himp := minLoop_improve (fun c => minimaxAux fuel c true) b coords
            (INT32_MAX, none)
            ⟨p, hp, hpe, by
              have := (ih (b.moveAt p) true).2
              simp only [INT32_MAX, WINNING] at this ⊢
              omega⟩
          rcases minLoop_attain (fun c => minimaxAux fuel c true) b coords
            (INT32_MAX, none) with heq | ⟨q, _, _, hqr⟩
          · rw [heq] at himp
            exact absurd himp (lt_irrefl _)
          · rw [hqr]
            exact ih (b.moveAt q) true

/-- The search loops on the full key list only act on the empty cells. -/
theorem maxLoop_emptyCells (ev : Board → Int × Option Point) (b : Board)
    (best : Int × Option Point) :
    maxLoop ev b best coords = maxLoop ev b best b.emptyCells :=
  maxLoop_filter ev b coords best

/-- The minimizing twin of `maxLoop_emptyCells`. -/
theorem minLoop_emptyCells (ev : Board → Int × Option Point) (b : Board)
    (best : Int × Option Point) :
    minLoop ev b best coords = minLoop ev b best b.emptyCells :=
  minLoop_filter ev b coords best

/-- Range of `Board.minimax` scores. -/
theorem minimax_range (b : Board) (flag : Bool) :
    LOSING ≤ (b.minimax flag).1 ∧ (b.minimax flag).1 ≤ WINNING :=
  minimaxAux_range (SIZE * SIZE + 1) b flag

/-- Unfolding membership in the empty-cell list. -/
theorem mem_emptyCells {b : Board} {p : Point} :
    p ∈ b.emptyCells ↔ p ∈ coords ∧ cell b.fields p.1 p.2 = EMPTY := by
  unfold Board.emptyCells
  rw [List.mem_filter]
  simp

/-- A board that is not full has an empty cell. -/
theorem exists_emptyCell {b : Board} (hfull : Board.no_empty b.fields = false) :
    ∃ p, p ∈ b.emptyCells := by
  obtain ⟨p, hp, hpe⟩ := (no_empty_false_iff b.fields).1 hfull
  exact ⟨p, mem_emptyCells.2 ⟨hp, hpe⟩⟩

/-! ### What `minimax` returns at an inner node -/

/-- At a maximizing node the result dominates the score of every candidate
move. -/
theorem minimax_max_ub (b : Board) (hwf : b.WF) (hwon : (b.won).1 = false)
    (hfull : Board.no_empty b.fields = false) :
    ∀ p ∈ b.emptyCells, ((b.moveAt p).minimax false).1 ≤ (b.minimax true).1 := by
  intro p hp
  rw [minimax_eq b true hwf]
  simp only [hwon, hfull, if_true, if_false, Bool.false_eq_true, ite_false, ite_true]
  rw [maxLoop_emptyCells]
  exact maxLoop_ub (fun c => c.minimax false) b b.emptyCells (INT32_MIN, none)
    (fun q _ _ => (minimax_range (b.moveAt q) false).2) p hp (mem_emptyCells.1 hp).2

/-- At a maximizing node the result is the score of one of the candidate
moves, paired with that move. -/
theorem minimax_max_attain (b : Board) (hwf : b.WF) (hwon : (b.won).1 = false)
    (hfull : Board.no_empty b.fields = false) :
    ∃ p ∈ b.emptyCells, b.minimax true = (((b.moveAt p).minimax false).1, some p) := by
  obtain ⟨p0, hp0⟩ := exists_emptyCell hfull
  have hp0' := mem_emptyCells.1 hp0
  have himp := maxLoop_improve (fun c => c.minimax false) b coords (INT32_MIN, none)
    ⟨p0, hp0'.1, hp0'.2, by
      have := (minimax_range (b.moveAt p0) false).1
      simp only [INT32_MIN, LOSING] at this ⊢
      omega⟩
  rw [maxLoop_emptyCells] at himp
  have hres : b.minimax true =
      maxLoop (fun c => c.minimax false) b (INT32_MIN, none) b.emptyCells := by
    rw [minimax_eq b true hwf]
    simp only [hwon, hfull, if_true, if_false, Bool.false_eq_true, ite_false, ite_true]
    rw [maxLoop_emptyCells]
  rcases maxLoop_attain (fun c => c.minimax false) b b.emptyCells
    (INT32_MIN, none) with heq | ⟨q, hq, _, hqr⟩
  · rw [heq] at himp
    exact absurd himp (lt_irrefl _)
  · exact ⟨q, hq, by rw [hres, hqr]⟩

/-- At a minimizing node the result is below the score of every candidate
move. -/
theorem minimax_min_lb (b : Board) (hwf : b.WF) (hwon : (b.won).1 = false)
    (hfull : Board.no_empty b.fields = false) :
    ∀ p ∈ b.emptyCells, (b.minimax false).1 ≤ ((b.moveAt p).minimax true).1 := by
  intro p hp
  rw [minimax_eq b false hwf]
  simp only [hwon, hfull, if_true, if_false, Bool.false_eq_true, ite_false, ite_true]
  rw [minLoop_emptyCells]
  exact minLoop_lb (fun c => c.minimax true) b b.emptyCells (INT32_MAX, none)
    (fun q _ _ => (minimax_range (b.moveAt q) true).1) p hp (mem_emptyCells.1 hp).2

/-- At a minimizing node the result is the score of one of the candidate
moves, paired with that move. -/
theorem minimax_min_attain (b : Board) (hwf : b.WF) (hwon : (b.won).1 = false)
    (hfull : Board.no_empty b.fields = false) :
    ∃ p ∈ b.emptyCells, b.minimax false = (((b.moveAt p).minimax true).1, some p) := by
  obtain ⟨p0, hp0⟩ := exists_emptyCell hfull
  have hp0' := mem_emptyCells.1 hp0
  have himp := minLoop_improve (fun c => c.minimax true) b coords (INT32_MAX, none)
    ⟨p0, hp0'.1, hp0'.2, by
      have := (minimax_range (b.moveAt p0) true).2
      simp only [INT32_MAX, WINNING] at this ⊢
      omega⟩
  rw [minLoop_emptyCells] at himp
  have hres : b.minimax false =
      minLoop (fun c => c.minimax true) b (INT32_MAX, none) b.emptyCells := by
    rw [minimax_eq b false hwf]
    simp only [hwon, hfull, if_true, if_false, Bool.false_eq_true, ite_false, ite_true]
    rw [minLoop_emptyCells]
  rcases minLoop_attain (fun c => c.minimax true) b b.emptyCells
    (INT32_MAX, none) with heq | ⟨q, hq, _, hqr⟩
  · rw [heq] at himp
    exact absurd himp (lt_irrefl _)
  · exact ⟨q, hq, by rw [hres, hqr]⟩

/-- Tie-break at a maximizing node: the returned move is the first empty
cell, in the row-major candidate order, achieving the returned score. -/
theorem minimax_max_find (b : Board) (hwf : b.WF) (hwon : (b.won).1 = false)
    (hfull : Board.no_empty b.fields = false) :
    (b.minimax true).2 =
      b.emptyCells.find? fun p =>
        ((b.moveAt p).minimax false).1 == (b.minimax true).1 := by
  obtain ⟨p0, hp0⟩ := exists_emptyCell hfull
  have hp0' := mem_emptyCells.1 hp0
  have hres : b.minimax true =
      maxLoop (fun c => c.minimax false) b (INT32_MIN, none) b.emptyCells := by
    rw [minimax_eq b true hwf]
    simp only [hwon, hfull, if_true, if_false, Bool.false_eq_true, ite_false, ite_true]
    rw [maxLoop_emptyCells]
  have himp := maxLoop_improve (fun c => c.minimax false) b coords (INT32_MIN, none)
    ⟨p0, hp0'.1, hp0'.2, by
      have := (minimax_range (b.moveAt p0) false).1
      simp only [INT32_MIN, LOSING] at this ⊢
      omega⟩
  rw [maxLoop_emptyCells] at himp
  rw [hres]
  exact maxLoop_find (fun c => c.minimax false) b b.emptyCells (INT32_MIN, none)
    (fun q hq => (mem_emptyCells.1 hq).2)
    (fun q _ => (minimax_range (b.moveAt q) false).2) himp

/-- Tie-break at a minimizing node: the returned move is the first empty
cell, in the row-major candidate order, achieving the returned score. -/
theorem minimax_min_find (b : Board) (hwf : b.WF) (hwon : (b.won).1 = false)
    (hfull : Board.no_empty b.fields = false) :
    (b.minimax false).2 =
      b.emptyCells.find? fun p =>
        ((b.moveAt p).minimax true).1 == (b.minimax false).1 := by
  obtain ⟨p0, hp0⟩ := exists_emptyCell hfull
  have hp0' := mem_emptyCells.1 hp0
  have hres : b.minimax false =
      minLoop (fun c => c.minimax true) b (INT32_MAX, none) b.emptyCells := by
    rw [minimax_eq b false hwf]
    simp only [hwon, hfull, if_true, if_false, Bool.false_eq_true, ite_false, ite_true]
    rw [minLoop_emptyCells]
  have himp := minLoop_improve (fun c => c.minimax true) b coords (INT32_MAX, none)
    ⟨p0, hp0'.1, hp0'.2, by
      have := (minimax_range (b.moveAt p0) true).2
      simp only [INT32_MAX, WINNING] at this ⊢
      omega⟩
  rw [minLoop_emptyCells] at himp
  rw [hres]
  exact minLoop_find (fun c => c.minimax true) b b.emptyCells (INT32_MAX, none)
    (fun q hq => (mem_emptyCells.1 hq).2)
    (fun q _ => (minimax_range (b.moveAt q) true).1) himp

/-! ### Characterizing `won` -/

/-- The per-line collected list is the whole line exactly when every cell of
the line holds the opponent's mark. -/
theorem lineWinning_eq_self_of_all (f : GameState) (opp : Entry) :
    ∀ l : List Point, (∀ p ∈ l, cell f p.1 p.2 = opp) → lineWinning f opp l = l := by
  intro l
  induction l with
  | nil => intro _; rfl
  | cons p rest ih =>
    intro h
    have hp := h p (by simp)
    simp only [lineWinning, List.filterMap_cons, hp, if_pos]
    have := ih fun q hq => h q (by simp [hq])
    simp only [lineWinning] at this
    rw [this]

/-- The per-line collected list has full length exactly when every cell of
the line holds the opponent's mark. -/
theorem lineWinning_length_eq_iff (f : GameState) (opp : Entry) :
    ∀ l : List Point,
      ((lineWinning f opp l).length = l.length ↔ ∀ p ∈ l, cell f p.1 p.2 = opp) := by
  intro l
  induction l with
  | nil => simp [lineWinning]
  | cons p rest ih =>
    by_cases hp : cell f p.1 p.2 = opp
    · simp only [lineWinning, List.filterMap_cons, hp, if_pos, List.length_cons]
      constructor
      · intro h q hq
        rcases List.mem_cons.1 hq with rfl | hq'
        · exact hp
        · exact (ih.1 (by simpa [lineWinning] using Nat.succ_injective h)) q hq'
      · intro h
        have := ih.2 fun q hq => h q (by simp [hq])
        simp only [lineWinning] at this
        simp [this]
    · have hskip : lineWinning f opp (p :: rest) = lineWinning f opp rest := by
        simp [lineWinning, hp]
      constructor
      · intro h
        exfalso
        have hle : (lineWinning f opp rest).length ≤ rest.length := by
          unfold lineWinning
          exact List.length_filterMap_le _ _
        rw [hskip, List.length_cons] at h
        omega
      · intro h
        exact absurd (h p (by simp)) hp

/-- Helper: `find?` only looks at predicate values on the list's
elements. -/
theorem findCongr {α : Type} (P Q : α → Bool) :
    ∀ l : List α, (∀ a ∈ l, P a = Q a) → l.find? P = l.find? Q := by
  intro l
  induction l with
  | nil => intro _; rfl
  | cons a l ih =>
    intro h
    have ha := h a (by simp)
    by_cases hQ : Q a = true
    · rw [List.find?_cons_of_pos _ (ha ▸ hQ), List.find?_cons_of_pos _ hQ]
    · rw [List.find?_cons_of_neg _ (by simp [ha, hQ]),
        List.find?_cons_of_neg _ (by simp [hQ])]
      exact ih fun x hx => h x (by simp [hx])

/-- Every line scanned by `won` has `SIZE` cells. -/
theorem lines_length : ∀ l ∈ lines, l.length = SIZE := by decide

/-- Characterization of `won`: it returns `(true, l)` for the first line
`l` — rows in row order, then columns, then the diagonal, then the
anti-diagonal — all of whose cells hold the opponent's mark, and
`(false, [])` when there is no such line. -/
theorem won_eq_firstLine (b : Board) :
    b.won =
      match lines.find? (fun l => l.all fun p => cell b.fields p.1 p.2 == b.opponent) with
      | some l => (true, l)
      | none => (false, []) := by
  unfold Board.won
  have hpred : ∀ l ∈ lines,
      ((lineWinning b.fields b.opponent l).length == SIZE) =
        (l.all fun p => cell b.fields p.1 p.2 == b.opponent) := by
    intro l hl
    have hlen := lines_length l hl
    by_cases h : ∀ p ∈ l, cell b.fields p.1 p.2 = b.opponent
    · have h1 : (lineWinning b.fields b.opponent l).length = SIZE := by
        rw [lineWinning_eq_self_of_all b.fields b.opponent l h, hlen]
      have h2 : (l.all fun p => cell b.fields p.1 p.2 == b.opponent) = true := by
        rw [List.all_eq_true]
        intro p hp
        simpa using h p hp
      simp [h1, h2]
    · have h1 : ((lineWinning b.fields b.opponent l).length == SIZE) = false := by
        rw [beq_eq_false_iff_ne]
        rw [← hlen]
        intro hcon
        exact h ((lineWinning_length_eq_iff b.fields b.opponent l).1 hcon)
      have h2 : (l.all fun p => cell b.fields p.1 p.2 == b.opponent) = false := by
        rw [← Bool.not_eq_true, List.all_eq_true]
        intro hcon
        exact h fun p hp => by simpa using hcon p hp
      simp [h1, h2]
  rw [findCongr _ _ lines hpred]
  cases hf : lines.find? (fun l => l.all fun p => cell b.fields p.1 p.2 == b.opponent) with
  | none => rfl
  | some l =>
    have hall := List.find?_some hf
    rw [List.all_eq_true] at hall
    show (true, lineWinning b.fields b.opponent l) = (true, l)
    rw [lineWinning_eq_self_of_all b.fields b.opponent l fun p hp => by
      simpa using hall p hp]

/-- Boolean form: the first component of `won` is true exactly when some
scanned line is entirely the opponent's. -/
theorem won_fst_iff (b : Board) :
    (b.won).1 = true ↔
      ∃ l ∈ lines, ∀ p ∈ l, cell b.fields p.1 p.2 = b.opponent := by
  rw [won_eq_firstLine]
  cases hf : lines.find? (fun l => l.all fun p => cell b.fields p.1 p.2 == b.opponent) with
  | none =>
    simp only [List.find?_eq_none] at hf
    show ((false, ([] : List Point)).1 = true) ↔ _
    constructor
    · intro h
      exact absurd h (by simp)
    · rintro ⟨l, hl, hall⟩
      exfalso
      have hcon := hf l hl
      rw [List.all_eq_true] at hcon
      exact hcon fun p hp => by simpa using hall p hp
  | some l =>
    have hall := List.find?_some hf
    rw [List.all_eq_true] at hall
    have hmem := List.mem_of_find?_eq_some hf
    simp only [true_iff]
    exact ⟨l, hmem, fun p hp => by simpa using hall p hp⟩

/-! ### The terminal cases of `minimax` -/

/-- On a board already won (by the mark that just moved — the board's
`opponent`), `minimax` answers immediately, full board or not: `LOSING`
when it is the opponent's move, `WINNING` otherwise, with no move. -/
theorem minimax_won (b : Board) (flag : Bool) (hwon : (b.won).1 = true) :
    b.minimax flag = if flag then (LOSING, none) else (WINNING, none) := by
  show minimaxAux (SIZE * SIZE + 1) b flag = _
  rw [minimaxAux_succ, if_pos hwon]

/-- On a full board with no winner, `minimax` answers `TIE` with no move. -/
theorem minimax_full (b : Board) (flag : Bool) (hwon : (b.won).1 = false)
    (hfull : Board.no_empty b.fields = true) :
    b.minimax flag = (TIE, none) := by
  show minimaxAux (SIZE * SIZE + 1) b flag = _
  rw [minimaxAux_succ, if_neg (by simp [hwon]), if_pos hfull]

/-! ### Soundness of the certificate checkers -/

/-- The proof-search ordering `prio` lists exactly the grid cells. -/
theorem mem_prio_iff_mem_coords {p : Point} : p ∈ prio ↔ p ∈ coords := by
  rw [mem_coords]
  constructor
  · intro h
    simp only [prio, List.mem_cons, List.not_mem_nil, or_false] at h
    rcases h with rfl | rfl | rfl | rfl | rfl | rfl | rfl | rfl | rfl <;> decide
  · rintro ⟨h1, h2⟩
    rcases p with ⟨x, y⟩
    simp only [SIZE] at h1 h2
    interval_cases x <;> interval_cases y <;> simp [prio]

/-- The candidate cells the checkers scan are exactly the board's empty
cells. -/
theorem mem_prioFilter_iff {b : Board} {p : Point} :
    p ∈ (prio.filter fun q => cell b.fields q.1 q.2 == EMPTY) ↔ p ∈ b.emptyCells := by
  constructor
  · intro h
    have h' := List.mem_filter.1 h
    exact mem_emptyCells.2 ⟨mem_prio_iff_mem_coords.1 h'.1, by simpa using h'.2⟩
  · intro h
    have h' := mem_emptyCells.1 h
    exact List.mem_filter.2 ⟨mem_prio_iff_mem_coords.2 h'.1, by simpa using h'.2⟩

/-- Soundness of `chkLE`: a successful run certifies an upper bound on the
`minimax` score. -/
theorem chkLE_sound :
    ∀ (fuel : Nat) (b : Board) (flag : Bool) (v : Int),
      b.WF → chkLE fuel b flag v = true → (b.minimax flag).1 ≤ v := by
  intro fuel
  induction fuel with
  | zero =>
    intro b flag v _ h
    exact absurd h (by simp [chkLE])
  | succ fuel ih =>
    intro b flag v hwf h
    simp only [chkLE] at h
    by_cases hwon : (b.won).1 = true
    · rw [if_pos hwon] at h
      rw [minimax_won b flag hwon]
      have := of_decide_eq_true h
      by_cases hflag : flag = true
      · rw [if_pos hflag] at this ⊢
        simpa using this
      · rw [if_neg hflag] at this ⊢
        simpa using this
    · rw [if_neg hwon] at h
      have hwon' : (b.won).1 = false := by simpa using hwon
      by_cases hfull : Board.no_empty b.fields = true
      · rw [if_pos hfull] at h
        rw [minimax_full b flag hwon' hfull]
        simpa using of_decide_eq_true h
      · rw [if_neg hfull] at h
        have hfull' : Board.no_empty b.fields = false := by simpa using hfull
        by_cases hflag : flag = true
        · rw [if_pos hflag] at h
          subst hflag
          obtain ⟨p, hp, hres⟩ := minimax_max_attain b hwf hwon' hfull'
          have hchild :
              chkLE fuel (b.moveAt p) false v = true := by
            rw [List.all_eq_true] at h
            exact h p (mem_prioFilter_iff.2 hp)
          have := ih (b.moveAt p) false v (WF_moveAt hwf p) hchild
          rw [hres]
          exact this
        · rw [if_neg hflag] at h
          have hflag' : flag = false := by simpa using hflag
          subst hflag'
          rw [List.any_eq_true] at h
          obtain ⟨p, hp, hchild⟩ := h
          have hp' := mem_prioFilter_iff.1 hp
          have hchild' := ih (b.moveAt p) true v (WF_moveAt hwf p) hchild
          exact le_trans (minimax_min_lb b hwf hwon' hfull' p hp') hchild'

/-- Soundness of `chkGE`: a successful run certifies a lower bound on the
`minimax` score. -/
theorem chkGE_sound :
    ∀ (fuel : Nat) (b : Board) (flag : Bool) (v : Int),
      b.WF → chkGE fuel b flag v = true → v ≤ (b.minimax flag).1 := by
  intro fuel
  induction fuel with
  | zero =>
    intro b flag v _ h
    exact absurd h (by simp [chkGE])
  | succ fuel ih =>
    intro b flag v hwf h
    simp only [chkGE] at h
    by_cases hwon : (b.won).1 = true
    · rw [if_pos hwon] at h
      rw [minimax_won b flag hwon]
      have := of_decide_eq_true h
      by_cases hflag : flag = true
      · rw [if_pos hflag] at this ⊢
        simpa using this
      · rw [if_neg hflag] at this ⊢
        simpa using this
    · rw [if_neg hwon] at h
      have hwon' : (b.won).1 = false := by simpa using hwon
      by_cases hfull : Board.no_empty b.fields = true
      · rw [if_pos hfull] at h
        rw [minimax_full b flag hwon' hfull]
        simpa using of_decide_eq_true h
      · rw [if_neg hfull] at h
        have hfull' : Board.no_empty b.fields = false := by simpa using hfull
        by_cases hflag : flag = true
        · rw [if_pos hflag] at h
          subst hflag
          rw [List.any_eq_true] at h
          obtain ⟨p, hp, hchild⟩ := h
          have hp' := mem_prioFilter_iff.1 hp
          have hchild' := ih (b.moveAt p) false v (WF_moveAt hwf p) hchild
          exact le_trans hchild' (minimax_max_ub b hwf hwon' hfull' p hp')
        · rw [if_neg hflag] at h
          have hflag' : flag = false := by simpa using hflag
          subst hflag'
          obtain ⟨p, hp, hres⟩ := minimax_min_attain b hwf hwon' hfull'
          have hchild :
              chkGE fuel (b.moveAt p) true v = true := by
            rw [List.all_eq_true] at h
            exact h p (mem_prioFilter_iff.2 hp)
          have := ih (b.moveAt p) true v (WF_moveAt hwf p) hchild
          rw [hres]
          exact this

/-! ### Exactness of the arithmetic encoding -/

/-- Cell codes are base-4 digits. -/
theorem encE_lt (e : Entry) : encE e < 4 := by
  cases e <;> decide

/-- Cell-code equality mirrors cell equality. -/
theorem encE_beq (a c : Entry) : (encE a == encE c) = (a == c) := by
  cases a <;> cases c <;> rfl

/-- Code `0` means the empty cell. -/
theorem encE_eqzero (a : Entry) : (encE a == 0) = (a == EMPTY) := by
  cases a <;> rfl

/-- Non-zero code means a non-empty cell. -/
theorem encE_nezero (a : Entry) : (encE a != 0) = !(a == EMPTY) := by
  cases a <;> rfl

/-- The key list, computed. -/
theorem coords_eq :
    coords = [(0, 0), (1, 0), (2, 0), (0, 1), (1, 1), (2, 1), (0, 2), (1, 2), (2, 2)] := by
  decide

/-- The scan lines, computed. -/
theorem lines_eq :
    lines = [[(0, 0), (1, 0), (2, 0)], [(0, 1), (1, 1), (2, 1)], [(0, 2), (1, 2), (2, 2)],
      [(0, 0), (0, 1), (0, 2)], [(1, 0), (1, 1), (1, 2)], [(2, 0), (2, 1), (2, 2)],
      [(0, 0), (1, 1), (2, 2)], [(2, 0), (1, 1), (0, 2)]] := by
  decide

/-- The checker ordering, as digit indexes. -/
theorem prioIdx_eq : prioIdx = prio.map fun p => p.2 * SIZE + p.1 := by
  decide

/-- Digits of the encoded cell list are the encoded cells. -/
theorem dig_encF : ∀ (f : GameState) (i : Nat), dig (encF f) i = encE (f.getD i EMPTY) := by
  intro f
  induction f with
  | nil =>
    intro i
    simp [dig, encF, EMPTY, encE]
  | cons e rest ih =>
    intro i
    cases i with
    | zero =>
      show (encE e + 4 * encF rest) / 4 ^ 0 % 4 = encE ((e :: rest).getD 0 EMPTY)
      rw [pow_zero, Nat.div_one, Nat.add_mul_mod_self_left]
      exact Nat.mod_eq_of_lt (encE_lt e)
    | succ i =>
      have h4 : (encE e + 4 * encF rest) / 4 = encF rest := by
        rw [Nat.add_mul_div_left _ _ (by norm_num : 0 < 4),
          Nat.div_eq_of_lt (encE_lt e), Nat.zero_add]
      show (encE e + 4 * encF rest) / 4 ^ (i + 1) % 4 = encE ((e :: rest).getD (i + 1) EMPTY)
      rw [pow_succ', ← Nat.div_div_eq_div_mul, h4, List.getD_cons_succ]
      simpa [dig] using ih i

/-- Setting a currently empty cell adds the player's code at that digit. -/
theorem encF_set : ∀ (f : GameState) (i : Nat) (v : Entry),
    f.getD i EMPTY = EMPTY → i < f.length →
    encF (f.set i v) = encF f + encE v * 4 ^ i := by
  intro f
  induction f with
  | nil =>
    intro i v _ hlen
    exact absurd hlen (Nat.not_lt_zero i)
  | cons e rest ih =>
    intro i v hget hlen
    cases i with
    | zero =>
      have he : e = EMPTY := by simpa using hget
      subst he
      show encF (v :: rest) = encF (EMPTY :: rest) + encE v * 4 ^ 0
      have h0 : encE EMPTY = 0 := rfl
      simp only [encF, h0, pow_zero]
      ring
    | succ i =>
      have hget' : rest.getD i EMPTY = EMPTY := by simpa using hget
      have hlen' : i < rest.length := by simpa using hlen
      show encF (e :: rest.set i v) = encF (e :: rest) + encE v * 4 ^ (i + 1)
      simp only [encF]
      rw [ih i v hget' hlen', pow_succ']
      ring

/-- Boolean form of `won_fst_iff`. -/
theorem won_fst_eq_any (b : Board) :
    (b.won).1 = (lines.any fun l => l.all fun p => cell b.fields p.1 p.2 == b.opponent) := by
  cases hany : (lines.any fun l => l.all fun p => cell b.fields p.1 p.2 == b.opponent) with
  | true =>
    rw [List.any_eq_true] at hany
    obtain ⟨l, hl, hall⟩ := hany
    rw [List.all_eq_true] at hall
    exact (won_fst_iff b).2 ⟨l, hl, fun p hp => by simpa using hall p hp⟩
  | false =>
    cases hw : (b.won).1 with
    | false => rfl
    | true =>
      obtain ⟨l, hl, hall⟩ := (won_fst_iff b).1 hw
      have hcon : (lines.any fun l => l.all fun p => cell b.fields p.1 p.2 == b.opponent) = true :=
        List.any_eq_true.2 ⟨l, hl, List.all_eq_true.2 fun p hp => by simpa using hall p hp⟩
      rw [hany] at hcon
      exact absurd hcon (by simp)

/-- The encoded win test agrees with `won`. -/
theorem wonN_bridge (b : Board) :
    wonN (encF b.fields) (encE b.opponent) = (b.won).1 := by
  rw [won_fst_eq_any, lines_eq]
  simp [wonN, lineN, dig_encF, encE_beq, cell, SIZE, Bool.or_assoc, Bool.and_assoc]

/-- The encoded full-board test agrees with `no_empty`. -/
theorem fullN_bridge (b : Board) :
    fullN (encF b.fields) = Board.no_empty b.fields := by
  rw [Board.no_empty, coords_eq]
  simp [fullN, dig_encF, encE_nezero, cell, SIZE, Bool.and_assoc]

/-- Scanning the encoded empty digits with `G` is scanning the empty cells
with `F`, when `G` at a cell's digit index agrees with `F` at the cell
(`all` version). -/
theorem filter_map_idx_all (b : Board) (F : Point → Bool) (G : Nat → Bool) :
    ∀ l : List Point,
      (∀ p ∈ l, cell b.fields p.1 p.2 = EMPTY → G (p.2 * SIZE + p.1) = F p) →
      (((l.map fun p => p.2 * SIZE + p.1).filter fun i => dig (encF b.fields) i == 0).all G) =
        ((l.filter fun q => cell b.fields q.1 q.2 == EMPTY).all F) := by
  intro l
  induction l with
  | nil => intro _; rfl
  | cons p rest ih =>
    intro hpt
    have hd : (dig (encF b.fields) (p.2 * SIZE + p.1) == 0) = (cell b.fields p.1 p.2 == EMPTY) := by
      rw [dig_encF]
      show (encE (b.fields.getD (p.2 * SIZE + p.1) EMPTY) == 0) = _
      rw [encE_eqzero]
      rfl
    have hpt' : ∀ q ∈ rest, cell b.fields q.1 q.2 = EMPTY → G (q.2 * SIZE + q.1) = F q :=
      fun q hq => hpt q (by simp [hq])
    simp only [List.map_cons]
    by_cases hc : cell b.fields p.1 p.2 = EMPTY
    · rw [List.filter_cons_of_pos (by rw [hd]; simp [hc]),
        List.filter_cons_of_pos (by simp [hc])]
      simp only [List.all_cons]
      rw [hpt p (by simp) hc, ih hpt']
    · rw [List.filter_cons_of_neg (by rw [hd]; simp [hc]),
        List.filter_cons_of_neg (by simp [hc])]
      exact ih hpt'

/-- Same as `filter_map_idx_all`, for `any`. -/
theorem filter_map_idx_any (b : Board) (F : Point → Bool) (G : Nat → Bool) :
    ∀ l : List Point,
      (∀ p ∈ l, cell b.fields p.1 p.2 = EMPTY → G (p.2 * SIZE + p.1) = F p) →
      (((l.map fun p => p.2 * SIZE + p.1).filter fun i => dig (encF b.fields) i == 0).any G) =
        ((l.filter fun q => cell b.fields q.1 q.2 == EMPTY).any F) := by
  intro l
  induction l with
  | nil => intro _; rfl
  | cons p rest ih =>
    intro hpt
    have hd : (dig (encF b.fields) (p.2 * SIZE + p.1) == 0) = (cell b.fields p.1 p.2 == EMPTY) := by
      rw [dig_encF]
      show (encE (b.fields.getD (p.2 * SIZE + p.1) EMPTY) == 0) = _
      rw [encE_eqzero]
      rfl
    have hpt' : ∀ q ∈ rest, cell b.fields q.1 q.2 = EMPTY → G (q.2 * SIZE + q.1) = F q :=
      fun q hq => hpt q (by simp [hq])
    simp only [List.map_cons]
    by_cases hc : cell b.fields p.1 p.2 = EMPTY
    · rw [List.filter_cons_of_pos (by rw [hd]; simp [hc]),
        List.filter_cons_of_pos (by simp [hc])]
      simp only [List.any_cons]
      rw [hpt p (by simp) hc, ih hpt']
    · rw [List.filter_cons_of_neg (by rw [hd]; simp [hc]),
        List.filter_cons_of_neg (by simp [hc])]
      exact ih hpt'

/-- The encoded upper-bound checker computes `chkLE` exactly. -/
theorem chkLEN_bridge :
    ∀ (fuel : Nat) (b : Board) (flag : Bool) (v : Int),
      b.fields.length = SIZE * SIZE →
      chkLEN fuel (encF b.fields) (encE b.player) (encE b.opponent) flag v =
        chkLE fuel b flag v := by
  intro fuel
  induction fuel with
  | zero => intro b flag v _; rfl
  | succ fuel ih =>
    intro b flag v hlen
    simp only [chkLEN, chkLE]
    rw [wonN_bridge, fullN_bridge]
    by_cases hwon : (b.won).1 = true
    · rw [if_pos hwon, if_pos hwon]
    · rw [if_neg hwon, if_neg hwon]
      by_cases hfull : Board.no_empty b.fields = true
      · rw [if_pos hfull, if_pos hfull]
      · rw [if_neg hfull, if_neg hfull]
        have hstep : ∀ (fl : Bool) (p : Point), p ∈ prio →
            cell b.fields p.1 p.2 = EMPTY →
            chkLEN fuel (encF b.fields + encE b.player * 4 ^ (p.2 * SIZE + p.1))
              (encE b.opponent) (encE b.player) fl v =
              chkLE fuel (b.moveAt p) fl v := by
          intro fl p hp hpe
          have hpc : p ∈ coords := mem_prio_iff_mem_coords.1 hp
          have hset : encF ((b.moveAt p).fields) =
              encF b.fields + encE b.player * 4 ^ (p.2 * SIZE + p.1) := by
            show encF (b.fields.set (p.2 * SIZE + p.1) b.player) = _
            exact encF_set b.fields _ b.player hpe (hlen ▸ idx_lt hpc)
          rw [← hset]
          exact ih (b.moveAt p) fl v (by simpa [Board.moveAt] using hlen)
        by_cases hflag : flag = true
        · rw [if_pos hflag, if_pos hflag, prioIdx_eq]
          exact filter_map_idx_all b _ _ prio fun p hp hpe => hstep false p hp hpe
        · rw [if_neg hflag, if_neg hflag, prioIdx_eq]
          exact filter_map_idx_any b _ _ prio fun p hp hpe => hstep true p hp hpe

/-- The encoded lower-bound checker computes `chkGE` exactly. -/
theorem chkGEN_bridge :
    ∀ (fuel : Nat) (b : Board) (flag : Bool) (v : Int),
      b.fields.length = SIZE * SIZE →
      chkGEN fuel (encF b.fields) (encE b.player) (encE b.opponent) flag v =
        chkGE fuel b flag v := by
  intro fuel
  induction fuel with
  | zero => intro b flag v _; rfl
  | succ fuel ih =>
    intro b flag v hlen
    simp only [chkGEN, chkGE]
    rw [wonN_bridge, fullN_bridge]
    by_cases hwon : (b.won).1 = true
    · rw [if_pos hwon, if_pos hwon]
    · rw [if_neg hwon, if_neg hwon]
      by_cases hfull : Board.no_empty b.fields = true
      · rw [if_pos hfull, if_pos hfull]
      · rw [if_neg hfull, if_neg hfull]
        have hstep : ∀ (fl : Bool) (p : Point), p ∈ prio →
            cell b.fields p.1 p.2 = EMPTY →
            chkGEN fuel (encF b.fields + encE b.player * 4 ^ (p.2 * SIZE + p.1))
              (encE b.opponent) (encE b.player) fl v =
              chkGE fuel (b.moveAt p) fl v := by
          intro fl p hp hpe
          have hpc : p ∈ coords := mem_prio_iff_mem_coords.1 hp
          have hset : encF ((b.moveAt p).fields) =
              encF b.fields + encE b.player * 4 ^ (p.2 * SIZE + p.1) := by
            show encF (b.fields.set (p.2 * SIZE + p.1) b.player) = _
            exact encF_set b.fields _ b.player hpe (hlen ▸ idx_lt hpc)
          rw [← hset]
          exact ih (b.moveAt p) fl v (by simpa [Board.moveAt] using hlen)
        by_cases hflag : flag = true
        · rw [if_pos hflag, if_pos hflag, prioIdx_eq]
          exact filter_map_idx_any b _ _ prio fun p hp hpe => hstep false p hp hpe
        · rw [if_neg hflag, if_neg hflag, prioIdx_eq]
          exact filter_map_idx_all b _ _ prio fun p hp hpe => hstep true p hp hpe

/-! ### The two full-game certificates, checked by computation -/

set_option maxRecDepth 4000000 in
set_option maxHeartbeats 64000000 in
/-- Computation: the encoded checker certifies that from the empty board the
maximizing side cannot force more than a draw. -/
theorem chkLEN_cert :
    chkLEN 10 (encF Board.new.fields) (encE Board.new.player)
      (encE Board.new.opponent) true 0 = true := by
  decide

set_option maxRecDepth 4000000 in
set_option maxHeartbeats 16000000 in
/-- Computation: the encoded checker certifies that from the empty board the
maximizing side can force at least a draw. -/
theorem chkGEN_cert :
    chkGEN 10 (encF Board.new.fields) (encE Board.new.player)
      (encE Board.new.opponent) true 0 = true := by
  decide

/-! ### The claims -/

/-- C1: for the initial empty board returned by `new()`,
`minimax(board, is_opponent_move=true)` returns score `TIE` (0) — with
perfect play by both sides, Tic-Tac-Toe from the empty 3×3 board is a
draw. -/
theorem C1_minimax_empty_board_tie : (Board.new.minimax true).1 = TIE := by
  have hwf : Board.new.WF := by decide
  have hlen : Board.new.fields.length = SIZE * SIZE := hwf.1
  have hle : (Board.new.minimax true).1 ≤ 0 :=
    chkLE_sound 10 Board.new true 0 hwf
      (by rw [← chkLEN_bridge 10 Board.new true 0 hlen]; exact chkLEN_cert)
  have hge : 0 ≤ (Board.new.minimax true).1 :=
    chkGE_sound 10 Board.new true 0 hwf
      (by rw [← chkGEN_bridge 10 Board.new true 0 hlen]; exact chkGEN_cert)
  exact le_antisymm hle hge

/-- C2: `move(x, y)` fails (here: returns `none`, the model of the raised
error — an `AssertionError` for an in-bounds-violating coordinate or an
occupied target, a `KeyError` for a negative coordinate; it never returns a
board or a sentinel failure value) exactly when `x` or `y` is outside
`[0, size)` or `fields[x, y]` is not empty; on every in-range empty target
it succeeds with a board. -/
theorem C2_move_contract (b : Board) (x y : Int) :
    (b.move x y).isSome = true ↔
      (0 ≤ x ∧ x < (SIZE : Int) ∧ 0 ≤ y ∧ y < (SIZE : Int) ∧
        cell b.fields x.toNat y.toNat = EMPTY) := by
  unfold Board.move
  split_ifs with h1 h2 h3
  · simp only [Option.isSome_some, true_iff]
    exact ⟨h2.1, h1.1, h2.2, h1.2, h3⟩
  · simp only [Option.isSome_none, Bool.false_eq_true, false_iff]
    rintro ⟨-, -, -, -, hcell⟩
    exact h3 hcell
  · simp only [Option.isSome_none, Bool.false_eq_true, false_iff]
    rintro ⟨hx0, -, hy0, -, -⟩
    exact h2 ⟨hx0, hy0⟩
  · simp only [Option.isSome_none, Bool.false_eq_true, false_iff]
    rintro ⟨-, hx, -, hy, -⟩
    exact h1 ⟨hx, hy⟩

/-- C3 (amended): `best(board)` does NOT itself fail on a terminal board —
it returns `None` (the move component `minimax` produced); the contract
error on a missing move is raised by the caller (the driver's
`assert move is not None`), not inside `best`.  On every well-formed
non-terminal board `best` returns a coordinate, so `best` returns `none`
exactly on terminal boards. -/
theorem C3_best_none_iff (b : Board) (hwf : b.WF) :
    b.best = none ↔ ((b.won).1 = true ∨ Board.no_empty b.fields = true) := by
  constructor
  · intro h
    by_contra hcon
    push_neg at hcon
    have hwon : (b.won).1 = false := by simpa using hcon.1
    have hfull : Board.no_empty b.fields = false := by simpa using hcon.2
    obtain ⟨p, hp, hres⟩ := minimax_max_attain b hwf hwon hfull
    unfold Board.best at h
    rw [hres] at h
    simp at h
  · intro h
    rcases h with hwon | hfull
    · unfold Board.best
      rw [minimax_won b true hwon]
      rfl
    · by_cases hwon : (b.won).1 = true
      · unfold Board.best
        rw [minimax_won b true hwon]
        rfl
      · have hwon' : (b.won).1 = false := by simpa using hwon
        unfold Board.best
        rw [minimax_full b true hwon' hfull]

/-- C3 (counterexample to the claim as stated): on the terminal board
`bRow` (top row completed), `best` does not fail with a contract error — it
returns normally, with the sentinel `none` as its value. -/
theorem C3_counterexample : bRow.best = none := by decide

/-- C3 (witness). -/
theorem C3_witness :
    bRow.best = none ↔ ((bRow.won).1 = true ∨ Board.no_empty bRow.fields = true) :=
  C3_best_none_iff bRow (by decide)

/-- C4: `won(board)` returns `(true, cells)` iff some row, column, main
diagonal or anti-diagonal consists entirely of the board's `opponent` mark;
the lines are checked rows first (`y = 0..size-1`), then columns, then the
main diagonal, then the anti-diagonal, only the first match (with its
cells, in scan order) is returned, and otherwise the result is
`(false, [])`. -/
theorem C4_won_characterization (b : Board) :
    (b.won =
      match lines.find? (fun l => l.all fun p => cell b.fields p.1 p.2 == b.opponent) with
      | some l => (true, l)
      | none => (false, [])) ∧
    ((b.won).1 = true ↔ ∃ l ∈ lines, ∀ p ∈ l, cell b.fields p.1 p.2 = b.opponent) ∧
    lines = [[(0, 0), (1, 0), (2, 0)], [(0, 1), (1, 1), (2, 1)], [(0, 2), (1, 2), (2, 2)],
      [(0, 0), (0, 1), (0, 2)], [(1, 0), (1, 1), (1, 2)], [(2, 0), (2, 1), (2, 2)],
      [(0, 0), (1, 1), (2, 2)], [(2, 0), (1, 1), (0, 2)]] :=
  ⟨won_eq_firstLine b, won_fst_iff b, lines_eq⟩

/-- C5: a successful `move(x, y)` returns a new board whose cell `(x, y)`
is the input board's `player`, whose `player` and `opponent` are swapped
relative to the input, and whose every other grid cell equals the input's;
the input board, being a value in this embedding of the source's
deep-copy-then-mutate, is itself unchanged. -/
theorem C5_move_frame (b : Board) (x y : Nat) (hx : x < SIZE) (hy : y < SIZE)
    (hlen : b.fields.length = SIZE * SIZE) (hemp : cell b.fields x y = EMPTY) :
    b.move x y = some (b.moveAt (x, y)) ∧
      (b.moveAt (x, y)).player = b.opponent ∧
      (b.moveAt (x, y)).opponent = b.player ∧
      cell (b.moveAt (x, y)).fields x y = b.player ∧
      ∀ q ∈ coords, q ≠ (x, y) →
        cell (b.moveAt (x, y)).fields q.1 q.2 = cell b.fields q.1 q.2 := by
  have hmem : (x, y) ∈ coords := mem_coords.2 ⟨hx, hy⟩
  refine ⟨?_, rfl, rfl, cell_moveAt_self b hmem hlen,
    fun q hq hne => cell_moveAt_ne b hmem hq hne⟩
  unfold Board.move
  rw [if_pos ⟨by exact_mod_cast hx, by exact_mod_cast hy⟩,
    if_pos ⟨Int.natCast_nonneg x, Int.natCast_nonneg y⟩,
    if_pos (by simpa using hemp)]
  simp

/-- C5 (witness). -/
theorem C5_witness : Board.new.move 0 0 = some (Board.new.moveAt (0, 0)) :=
  (C5_move_frame Board.new 0 0 (by decide) (by decide) (by decide) (by decide)).1

/-- C6: `minimax` scans the empty cells in the fixed row-major key order of
the board's dict (`y` outer, `x` inner, set up at construction), and among
equally-scored candidates returns the first in that order: the returned
move is the first scanned empty cell whose child score equals the returned
score, because the running best is updated only on strictly better
values. -/
theorem C6_tie_break (b : Board) (flag : Bool) (hwf : b.WF)
    (hwon : (b.won).1 = false) (hfull : Board.no_empty b.fields = false) :
    (b.minimax flag).2 =
      b.emptyCells.find? (fun p => ((b.moveAt p).minimax (!flag)).1 == (b.minimax flag).1) ∧
    b.emptyCells = coords.filter (fun p => cell b.fields p.1 p.2 == EMPTY) ∧
    coords = [(0, 0), (1, 0), (2, 0), (0, 1), (1, 1), (2, 1), (0, 2), (1, 2), (2, 2)] := by
  refine ⟨?_, rfl, coords_eq⟩
  cases flag
  · exact minimax_min_find b hwf hwon hfull
  · exact minimax_max_find b hwf hwon hfull

/-- C6 (witness). -/
theorem C6_witness :
    (bTwo.minimax true).2 =
      bTwo.emptyCells.find?
        (fun p => ((bTwo.moveAt p).minimax (!true)).1 == (bTwo.minimax true).1) :=
  (C6_tie_break bTwo true (by decide) (by decide) (by decide)).1

/-- C7: `minimax` checks its base cases won-first, then full: on a won
board it returns `(LOSING, none)` at an opponent-move node and
`(WINNING, none)` otherwise, whether or not the board is also full; on a
full board with no winner it returns `(TIE, none)`. -/
theorem C7_minimax_base_cases (b : Board) (flag : Bool) :
    ((b.won).1 = true →
      b.minimax flag = (if flag then (LOSING, none) else (WINNING, none))) ∧
    ((b.won).1 = false → Board.no_empty b.fields = true →
      b.minimax flag = (TIE, none)) :=
  ⟨minimax_won b flag, minimax_full b flag⟩

/-- C7 (witness). -/
theorem C7_witness :
    bRow.minimax true = (LOSING, none) ∧ bTie.minimax false = (TIE, none) := by
  constructor
  · have h := (C7_minimax_base_cases bRow true).1 (by decide)
    simpa using h
  · exact (C7_minimax_base_cases bTie false).2 (by decide) (by decide)

/-- C8: on a board with exactly one empty cell, no winner yet, where
placing the current player's mark on that cell completes a line for that
player, `minimax(board, is_opponent_move=true)` returns
`(WINNING, that cell)` and `best` returns that cell. -/
theorem C8_forced_win (b : Board) (p : Point) (hwf : b.WF)
    (hone : b.emptyCells = [p]) (hwon : (b.won).1 = false)
    (hchild : ((b.moveAt p).won).1 = true) :
    b.minimax true = (WINNING, some p) ∧ b.best = some p := by
  have hp : p ∈ b.emptyCells := by rw [hone]; simp
  have hpm := mem_emptyCells.1 hp
  have hfull : Board.no_empty b.fields = false := by
    cases hfe : Board.no_empty b.fields
    · rfl
    · exfalso
      unfold Board.no_empty at hfe
      rw [List.all_eq_true] at hfe
      have := hfe p hpm.1
      simp [hpm.2] at this
  have hchildval : (b.moveAt p).minimax false = (WINNING, none) := by
    have := minimax_won (b.moveAt p) false hchild
    simpa using this
  have hres : b.minimax true =
      maxLoop (fun c => c.minimax false) b (INT32_MIN, none) b.emptyCells := by
    rw [minimax_eq b true hwf]
    simp only [hwon, hfull, if_true, if_false, Bool.false_eq_true, ite_false, ite_true]
    rw [maxLoop_emptyCells]
  rw [hone] at hres
  have hloop : maxLoop (fun c => c.minimax false) b (INT32_MIN, none) [p] =
      (WINNING, some p) := by
    simp [maxLoop, hpm.2, hchildval, WINNING, INT32_MIN]
  constructor
  · rw [hres, hloop]
  · unfold Board.best
    rw [hres, hloop]

/-- C8 (witness). -/
theorem C8_witness : bOne.minimax true = (WINNING, some (2, 0)) ∧ bOne.best = some (2, 0) :=
  C8_forced_win bOne (2, 0) (by decide) (by decide) (by decide) (by decide)

/-- C9: `minimax` terminates on every well-formed board: each recursive
call operates on a board with strictly fewer empty cells, so the
depth-first search is well-founded on the empty-cell count — concretely,
any fuel beyond `emptyCount` makes the fuel-indexed search agree with
`Board.minimax`, i.e. the recursion always completes within `emptyCount`
depth. -/
theorem C9_termination :
    (∀ (b : Board) (p : Point), b.player ≠ EMPTY → b.fields.length = SIZE * SIZE →
      p ∈ b.emptyCells → emptyCount (b.moveAt p).fields < emptyCount b.fields) ∧
    (∀ (fuel : Nat) (b : Board) (flag : Bool), b.WF → emptyCount b.fields < fuel →
      minimaxAux fuel b flag = b.minimax flag) := by
  constructor
  · intro b p hpl hlen hp
    have h := mem_emptyCells.1 hp
    exact emptyCount_moveAt b h.1 h.2 hpl hlen
  · intro fuel b flag hwf hf
    refine minimaxAux_stable fuel (SIZE * SIZE + 1) b flag hwf hf ?_
    have := emptyCount_le b.fields
    omega

/-- C9 (witness). -/
theorem C9_witness :
    emptyCount (bRow.moveAt (2, 1)).fields < emptyCount bRow.fields ∧
    minimaxAux 5 bRow true = bRow.minimax true := by
  constructor
  · exact C9_termination.1 bRow (2, 1) (by decide) (by decide) (by decide)
  · exact C9_termination.2 5 bRow true (by decide) (by decide)

/-- C10: on every well-formed board that is neither won nor full, `minimax`
returns a score in `{-1, 0, 1}` together with the coordinate of some empty
cell: the recursive branch always updates on at least one candidate, so
neither the `INT32_MIN` / `INT32_MAX` sentinels nor the no-move result ever
escape to the caller from a non-terminal board. -/
theorem C10_nonterminal_result (b : Board) (flag : Bool) (hwf : b.WF)
    (hwon : (b.won).1 = false) (hfull : Board.no_empty b.fields = false) :
    ((b.minimax flag).1 = LOSING ∨ (b.minimax flag).1 = TIE ∨
      (b.minimax flag).1 = WINNING) ∧
    (∃ p ∈ b.emptyCells, (b.minimax flag).2 = some p) ∧
    (b.minimax flag).1 ≠ INT32_MIN ∧ (b.minimax flag).1 ≠ INT32_MAX := by
  have hrange := minimax_range b flag
  have hmove : ∃ p ∈ b.emptyCells, (b.minimax flag).2 = some p := by
    cases flag
    · obtain ⟨p, hp, hres⟩ := minimax_min_attain b hwf hwon hfull
      exact ⟨p, hp, by rw [hres]⟩
    · obtain ⟨p, hp, hres⟩ := minimax_max_attain b hwf hwon hfull
      exact ⟨p, hp, by rw [hres]⟩
  refine ⟨?_, hmove, ?_, ?_⟩
  · simp only [LOSING, TIE, WINNING] at hrange ⊢
    omega
  · simp only [LOSING, WINNING, INT32_MIN] at hrange ⊢
    omega
  · simp only [LOSING, WINNING, INT32_MAX] at hrange ⊢
    omega

/-- C10 (witness). -/
theorem C10_witness :
    ((bTwo.minimax true).1 = LOSING ∨ (bTwo.minimax true).1 = TIE ∨
      (bTwo.minimax true).1 = WINNING) ∧
    (∃ p ∈ bTwo.emptyCells, (bTwo.minimax true).2 = some p) ∧
    (bTwo.minimax true).1 ≠ INT32_MIN ∧ (bTwo.minimax true).1 ≠ INT32_MAX :=
  C10_nonterminal_result bTwo true (by decide) (by decide) (by decide)

end TicTacToe
